import Mathlib

/-!
Verification of the `LabelModel` core (metal/label_model/label_model.py).

The Python code computes over NumPy/SciPy/PyTorch float matrices.  We embed
float values as exact rationals extended with the IEEE special values `inf`,
`ninf` (negative infinity) and `nan`, which the overlaps-matrix construction
genuinely produces (division by a zero labeling propensity).  A task's vote
matrix `L_t` (an `[N, M]` sparse integer matrix, `0` = abstain) is embedded
as a total function `Fin N → Fin M → ℤ` (the sparse layout stores exactly
the nonzero entries of this abstract matrix).
-/

deriving instance DecidableEq for Except

/-- Errors raised by the label model (the Python code raises `Exception`
with a formatted message; we record the message's discriminating content). -/
inductive LMErr where
  | nonUnipolar (t j : ℕ)
  | attrMismatch
  | rowsMismatch (t : ℕ)
  | notSparse (t : ℕ)
  | badDtype (t : ℕ)
  | labelMapAmbiguous
  | cardinality (t : ℕ)
  | assertionError
deriving DecidableEq

/-- Embedding of an IEEE-754 double: an exact rational, `+∞`, `-∞`, or NaN.
(Rounding is idealized away; special-value propagation is kept exactly.) -/
inductive Fl where
  | q (a : ℚ)
  | inf
  | ninf
  | nan
deriving DecidableEq

namespace Fl

/-- IEEE negation. -/
def neg : Fl → Fl
  | q a => q (-a)
  | inf => ninf
  | ninf => inf
  | nan => nan

/-- IEEE addition (`inf + -inf = nan`, NaN propagates). -/
def add : Fl → Fl → Fl
  | q a, q b => q (a + b)
  | q _, inf => inf
  | q _, ninf => ninf
  | q _, nan => nan
  | inf, q _ => inf
  | inf, inf => inf
  | inf, ninf => nan
  | inf, nan => nan
  | ninf, q _ => ninf
  | ninf, inf => nan
  | ninf, ninf => ninf
  | ninf, nan => nan
  | nan, _ => nan

/-- IEEE subtraction. -/
def sub (x y : Fl) : Fl := add x (y.neg)

/-- IEEE multiplication (`0 * ±inf = nan`, NaN propagates). -/
def mul : Fl → Fl → Fl
  | q a, q b => q (a * b)
  | q a, inf => if a = 0 then nan else if 0 < a then inf else ninf
  | q a, ninf => if a = 0 then nan else if 0 < a then ninf else inf
  | q _, nan => nan
  | inf, q a => if a = 0 then nan else if 0 < a then inf else ninf
  | inf, inf => inf
  | inf, ninf => ninf
  | inf, nan => nan
  | ninf, q a => if a = 0 then nan else if 0 < a then ninf else inf
  | ninf, inf => ninf
  | ninf, ninf => inf
  | ninf, nan => nan
  | nan, _ => nan

/-- IEEE reciprocal, as produced by `1 / np.diag(O)`: `1 / 0.0 = +inf`. -/
def recip : Fl → Fl
  | q a => if a = 0 then inf else q a⁻¹
  | inf => q 0
  | ninf => q 0
  | nan => nan

end Fl

/-- `O[np.isnan(O)] = 0` (label_model.py line 75), applied entrywise. -/
def denanF (x : Fl) : Fl := if x = Fl.nan then Fl.q 0 else x

/-- `torch.clamp(x, min=-0.95, max=0.95)` (line 78): elementwise
`min(max(x, -0.95), 0.95)`; `torch.clamp` propagates NaN. -/
def clampF : Fl → Fl
  | Fl.q a => Fl.q (min (max a (-0.95)) 0.95)
  | Fl.inf => Fl.q 0.95
  | Fl.ninf => Fl.q (-0.95)
  | Fl.nan => Fl.nan

/-- The stored `data` of column `j` of the CSC matrix `L_t`
(`L_t.data[L_t.indptr[j]:L_t.indptr[j+1]]`, line 36): the canonical CSC form
stores exactly the nonzero entries of the column, in row order. -/
def colVotes {N M : ℕ} (L : Fin N → Fin M → ℤ) (j : Fin M) : List ℤ :=
  ((List.finRange N).map (fun i => L i j)).filter (fun a => a ≠ 0)

/-- `vals = set(...)` (line 36): the distinct nonzero vote values of
source `j`. -/
def colVals {N M : ℕ} (L : Fin N → Fin M → ℤ) (j : Fin M) : Finset ℤ :=
  (colVotes L j).toFinset

/-- `_infer_polarity(L_t, t, j)` (lines 33-43): the unique nonzero vote value
of source `j` on task `t`, `0` if it never votes, and an exception if it
casts more than one distinct value.  `list(vals)[0]` picks an element in the
unspecified Python set order; at that branch `vals` is a singleton, so taking
the first stored nonzero entry picks the same element. -/
def inferPolarity {N M : ℕ} (L : Fin N → Fin M → ℤ) (t : ℕ) (j : Fin M) :
    Except LMErr ℤ :=
  let vals := colVals L j
  if 1 < vals.card then .error (.nonUnipolar t j.val)
  else if vals.card = 0 then .ok 0
  else .ok (colVotes L j).headI

/-- The list comprehension `[self._infer_polarity(L_t, t, j) for j in
range(self.M)]` (line 48): left-to-right, stopping at the first exception. -/
def polList {N M : ℕ} (L : Fin N → Fin M → ℤ) (t : ℕ) :
    List (Fin M) → Except LMErr (List ℤ)
  | [] => .ok []
  | j :: rest =>
    match inferPolarity L t j with
    | .error e => .error e
    | .ok v =>
      match polList L t rest with
      | .error e => .error e
      | .ok vs => .ok (v :: vs)

/-- The binarized matrix `L_nz` (lines 55-56): `L_nz.data[:] = 1` sets every
stored (nonzero) entry to `1`, leaving absent entries `0`. -/
def Lnz {N M : ℕ} (L : Fin N → Fin M → ℤ) (n : Fin N) (j : Fin M) : ℚ :=
  if L n j = 0 then 0 else 1

/-- Entry `(i, j)` of `O = L_nz.T @ L_nz / N` (line 57). -/
def Opre {N M : ℕ} (L : Fin N → Fin M → ℤ) (i j : Fin M) : ℚ :=
  (∑ n, Lnz L n i * Lnz L n j) / (N : ℚ)

/-- `beta = np.diag(O)` (line 61): source `i`'s empirical voting rate. -/
def betaProp {N M : ℕ} (L : Fin N → Fin M → ℤ) (i : Fin M) : ℚ :=
  Opre L i i

/-- Entry `(i, j)` of `B @ O @ B` with `B = np.diag(1 / np.diag(O))`
(lines 62-63).  `B` is diagonal, so the product is entrywise
`B[i,i] * O[i,j] * B[j,j]`, computed with IEEE special values:
a never-voting source has `beta = 0`, giving `B[i,i] = inf` and
`inf * 0 = nan` across its row and column. -/
def OnormF {N M : ℕ} (L : Fin N → Fin M → ℤ) (i j : Fin M) : Fl :=
  Fl.mul (Fl.mul (Fl.recip (Fl.q (betaProp L i))) (Fl.q (Opre L i j)))
    (Fl.recip (Fl.q (betaProp L j)))

/-- One entry of the overlaps matrix after polarity correction (lines 66-70:
off-diagonal `O[i,j] = c * (O[i,j] - 1)` with `c = 1` if the polarities
agree and `-1` otherwise), NaN resolution (line 75) and clamping (line 78). -/
def overlapsEntry {N M : ℕ} (L : Fin N → Fin M → ℤ) (p : ℕ → ℤ)
    (i j : Fin M) : Fl :=
  let x := OnormF L i j
  let y := if i ≠ j then
      Fl.mul (Fl.q (if p i.val = p j.val then 1 else -1)) (Fl.sub x (Fl.q 1))
    else x
  clampF (denanF y)

/-- `_get_overlaps_matrix(L_t, t)` (lines 45-78): infer all polarities
(raising on a non-unipolar source), then build the corrected, NaN-resolved,
clamped overlaps matrix. -/
def getOverlapsMatrix {N M : ℕ} (L : Fin N → Fin M → ℤ) (t : ℕ) :
    Except LMErr (Fin M → Fin M → Fl) :=
  match polList L t (List.finRange M) with
  | .error e => .error e
  | .ok pl => .ok (fun i j => overlapsEntry L (fun k => pl.getD k 0) i j)

/-- `_task_loss(O_t, t, l2)` (lines 86-105): the nested `for i / for j /
if i != j` accumulation, scaled by `M**2 - M`, plus the centered L2 term
`l2 * torch.sum((gamma[t] - gamma_init)**2)` added only when `l2 > 0.0`
(`torch.sum` over a vector is the mathematical sum of its entries). -/
def taskLoss {T M : ℕ} (gamma : Fin T → Fin M → ℚ) (gamma_init : ℚ)
    (O_t : Fin M → Fin M → ℚ) (t : Fin T) (l2 : ℚ) : ℚ :=
  let loss := (List.finRange M).foldl (fun acc i =>
    (List.finRange M).foldl (fun acc2 j =>
      if i ≠ j then acc2 + (gamma t i * gamma t j - O_t i j) ^ 2 else acc2)
      acc) 0
  let scaled := loss / ((M : ℚ) ^ 2 - (M : ℚ))
  if l2 > 0 then scaled + l2 * ∑ i, (gamma t i - gamma_init) ^ 2 else scaled

/-- `get_loss(O, l2)` (lines 174-183): `loss = torch.tensor(0.0)` then
`loss += self._task_loss(O_t, t, l2=l2)` over `enumerate(O)`. -/
def getLoss {T M : ℕ} (gamma : Fin T → Fin M → ℚ) (gamma_init : ℚ)
    (O : Fin T → Fin M → Fin M → ℚ) (l2 : ℚ) : ℚ :=
  (List.finRange T).foldl
    (fun acc t => acc + taskLoss gamma gamma_init (O t) t l2) 0

/-- `accs` (lines 107-110): `torch.clamp(0.5 * (self.gamma.data + 1),
min=0.01, max=0.99)`, i.e. elementwise `min(max(x, 0.01), 0.99)`. -/
def accs {T M : ℕ} (gamma : Fin T → Fin M → ℚ) (t : Fin T) (j : Fin M) : ℚ :=
  min (max (0.5 * (gamma t j + 1)) 0.01) 0.99

/-- `log_odds_accs` (lines 112-115): `torch.log(self.accs / (1 - self.accs))`
(the idealized real logarithm; its argument is proved strictly positive, the
condition for the float `log` to be finite). -/
noncomputable def logOddsAccs {T M : ℕ} (gamma : Fin T → Fin M → ℚ)
    (t : Fin T) (j : Fin M) : ℝ :=
  Real.log ((accs gamma t j : ℝ) / (1 - (accs gamma t j : ℝ)))

/-- The two `torch.where` steps of `predict_task_proba` (lines 161-163),
elementwise on a dense float vote entry `a` for candidate class `y_t`:
first `-1` where `(L_t != y_t) & (L_t != 0)`, then `1` where the result
equals `y_t`. -/
def whereVote (a : ℚ) (y : ℕ) : ℚ :=
  let b := if a ≠ (y : ℚ) ∧ a ≠ 0 then -1 else a
  if b = (y : ℚ) then 1 else b

/-- `Y_pt` (lines 159-164): the `[N, K_t]` matrix of unnormalized scores,
column `y_t - 1` being `L_t_y @ self.log_odds_accs[t]` for
`y_t = k + 1 ∈ {1, ..., K_t}`. -/
noncomputable def Ypt {T M N : ℕ} (gamma : Fin T → Fin M → ℚ) (t : Fin T)
    (L : Fin N → Fin M → ℤ) (K : ℕ) : Fin N → Fin K → ℝ :=
  fun n k => ∑ j, ((whereVote ((L n j : ℚ)) (k.val + 1) : ℚ) : ℝ) *
    logOddsAccs gamma t j

/-- `predict_task_proba(L, t)` (lines 135-168): row-wise
`F.softmax(Y_pt, dim=1)` of the scores (softmax's max-subtraction trick is
numerically motivated and mathematically the identity below). -/
noncomputable def predictTaskProba {T M N : ℕ} (gamma : Fin T → Fin M → ℚ)
    (t : Fin T) (L : Fin N → Fin M → ℤ) (K : ℕ) : Fin N → Fin K → ℝ :=
  fun n k => Real.exp (Ypt gamma t L K n k) /
    ∑ k2, Real.exp (Ypt gamma t L K n k2)

/-- A caller-supplied task label matrix as `train` receives it: the abstract
integer matrix (row-major entries) plus the format attributes `_check_L`
inspects (`issparse`, integer dtype). -/
structure SMat where
  data : List (List ℤ)
  sparse : Bool
  intDtype : Bool
deriving DecidableEq

/-- `A.shape[0]`. -/
def SMat.nrows (A : SMat) : ℕ := A.data.length

/-- `A.shape[1]` (the matrices are rectangular; row 0 carries the width). -/
def SMat.ncols (A : SMat) : ℕ := (A.data.headD []).length

/-- `np.amax(A)` on a sparse matrix: the maximum over the dense entries. -/
def SMat.amax (A : SMat) : ℤ :=
  A.data.foldl (fun m r => r.foldl max m) 0

/-- The abstract matrix entry function of `A`. -/
def SMat.entry (A : SMat) : Fin A.nrows → Fin A.ncols → ℤ :=
  fun i j => (A.data.getD i.val []).getD j.val 0

/-- Only the `q` case occurs for clamped overlaps entries (proved below);
the projection back to a plain rational for the optimizer. -/
def Fl.toQ : Fl → ℚ
  | q a => a
  | inf => 0
  | ninf => 0
  | nan => 0

/-- `_get_overlaps_matrix` on one task's input matrix, as an `M × M` list
matrix for the fitter (`self.M` equals `A.ncols` after `_check_L`). -/
def overlapsTask (A : SMat) (t : ℕ) : Except LMErr (List (List ℚ)) :=
  match getOverlapsMatrix A.entry t with
  | .error e => .error e
  | .ok O => .ok ((List.finRange A.ncols).map (fun i =>
      (List.finRange A.ncols).map (fun j => (O i j).toQ)))

/-- `O = [self._get_overlaps_matrix(L_t, t) for t, L_t in enumerate(L_train)]`
(line 205): left to right, stopping at the first exception. -/
def overlapsAll : List SMat → ℕ → Except LMErr (List (List (List ℚ)))
  | [], _ => .ok []
  | A :: rest, t =>
    match overlapsTask A t with
    | .error e => .error e
    | .ok O =>
      match overlapsAll rest (t + 1) with
      | .error e => .error e
      | .ok Os => .ok (O :: Os)

/-- Modelled from the spec: the recognized `train_config` keys (spec section
6); the defaults module `lm_defaults` is outside the given sources, so the
configuration values are carried as parameters. -/
structure TrainCfg where
  gamma_init : ℚ
  l2 : ℚ
  n_epochs : ℕ
  lr : ℚ
  momentum : ℚ
  weight_decay : ℚ

/-- `loss.backward()` computes the exact gradient of `get_loss` with respect
to `gamma` (reverse-mode differentiation is an external service); this is its
closed form at entry `(t, a)`: each off-diagonal pair `(a, j)` and `(j, a)`
of task `t` contributes `2·(γ_a·γ_j − O)·γ_j`, scaled by `M² − M`, plus the
centered L2 term's `2·l2·(γ_a − gamma_init)` when `l2 > 0`. -/
def gradEntry (O_t : List (List ℚ)) (grow : List ℚ) (g0 l2 : ℚ)
    (Mn a : ℕ) : ℚ :=
  ((List.range Mn).map (fun j => if j ≠ a then
      2 * (grow.getD a 0 * grow.getD j 0 - (O_t.getD a []).getD j 0) *
        grow.getD j 0 +
      2 * (grow.getD j 0 * grow.getD a 0 - (O_t.getD j []).getD a 0) *
        grow.getD j 0
    else 0)).sum / ((Mn : ℚ) ^ 2 - (Mn : ℚ)) +
  (if l2 > 0 then 2 * l2 * (grow.getD a 0 - g0) else 0)

/-- One `optimizer.step()` of `optim.SGD` with momentum (lines 210-227):
`v ← momentum·v + (grad + weight_decay·p)`, `p ← p − lr·v` (dampening 0,
nesterov false; starting the buffer at 0 reproduces torch's first-step
`v = grad`). -/
def sgdStep (cfg : TrainCfg) (O : List (List (List ℚ))) (Tn Mn : ℕ)
    (gv : List (List ℚ) × List (List ℚ)) : List (List ℚ) × List (List ℚ) :=
  let g := gv.1
  let v := gv.2
  let v2 := (List.range Tn).map (fun t => (List.range Mn).map (fun a =>
    cfg.momentum * ((v.getD t []).getD a 0) +
      (gradEntry (O.getD t []) (g.getD t []) cfg.gamma_init cfg.l2 Mn a +
        cfg.weight_decay * ((g.getD t []).getD a 0))))
  let g2 := (List.range Tn).map (fun t => (List.range Mn).map (fun a =>
    (g.getD t []).getD a 0 - cfg.lr * ((v2.getD t []).getD a 0)))
  (g2, v2)

/-- `_init_params` (lines 80-84: `gamma = gamma_init * ones(T, M)`) followed
by the `n_epochs` full-batch SGD epochs (lines 218-227); printing (lines
229-240) is a pure observability side channel. -/
def fitGamma (cfg : TrainCfg) (O : List (List (List ℚ))) (Tn Mn : ℕ) :
    List (List ℚ) :=
  ((sgdStep cfg O Tn Mn)^[cfg.n_epochs]
    (List.replicate Tn (List.replicate Mn cfg.gamma_init),
     List.replicate Tn (List.replicate Mn 0))).1

/-- The mutable attributes of the `LabelModel` object that `_check_L` and
`train` touch: `self.T`, `self.M`, `self.label_map`, `self.K_t`,
`self.gamma` (`none` = attribute not yet set), and the `multitask` flag
fixed by `__init__`. -/
structure LMState where
  T : Option ℕ
  M : Option ℕ
  label_map : Option (List (List ℤ))
  K_t : Option (List ℕ)
  gamma : Option (List (List ℚ))
  multitask : Bool
deriving DecidableEq

/-- Modelled from the spec: `_check_or_set_attr` lives in `metal.classifier`,
outside the given sources.  Per the `_check_L` docstring ("If True,
initialize self.T, self.M, and self.label_map if empty; else check against
these") and the call sites: with `set_val` it initializes an unset attribute,
otherwise the attribute must exist and match. -/
def checkOrSet {α : Type} [DecidableEq α] (cur : Option α) (v : α)
    (setVal : Bool) : Except LMErr (Option α) :=
  match cur with
  | some w => if w = v then .ok (some w) else .error .attrMismatch
  | none => if setVal then .ok (some v) else .error .attrMismatch

/-- The per-task loop of `_check_L` (lines 267-279), in source order:
check `M` against each task's width, then row count, sparsity, dtype
(`tocsc` on line 279 is a representation change with no model effect). -/
def checkTasksAux (Mv : Option ℕ) (n : ℕ) :
    List SMat → ℕ → Option LMErr
  | [], _ => none
  | A :: rest, t =>
    match checkOrSet Mv A.ncols false with
    | .error e => some e
    | .ok _ =>
      if A.nrows ≠ n then some (.rowsMismatch t)
      else if ¬A.sparse then some (.notSparse t)
      else if ¬A.intDtype then some (.badDtype t)
      else checkTasksAux Mv n rest (t + 1)

/-- The cardinality loop of `_check_L` (lines 295-298):
`np.amax(L_t) > self.K_t[t]`. -/
def cardCheckAux (Ks : List ℕ) : List SMat → ℕ → Option LMErr
  | [], _ => none
  | A :: rest, t =>
    if ((Ks.getD t 0 : ℕ) : ℤ) < A.amax then some (.cardinality t)
    else cardCheckAux Ks rest (t + 1)

/-- `_check_L(L, init)` (lines 242-299).  Python attribute mutations persist
when an exception propagates, so the result carries the state as mutated at
raise time alongside the outcome. -/
def checkL (s : LMState) (L : List SMat) (init : Bool) :
    LMState × Except LMErr (List SMat) :=
  -- lines 252-258: in the multitask case `assert(isinstance(L, list))` and
  -- `assert(issparse(L[0]))`; a single matrix is wrapped into `[L]`
  if s.multitask && !(match L.head? with
      | some A => A.sparse
      | none => false) then (s, .error .assertionError)
  else
    match checkOrSet s.T L.length false with  -- line 261
    | .error e => (s, .error e)
    | .ok Tv =>
      let s1 := { s with T := Tv }
      match L.head? with
      | none => (s1, .error .assertionError)  -- line 262: `L[0]` IndexError
      | some A0 =>
        match checkOrSet s1.M A0.ncols init with  -- line 264
        | .error e => (s1, .error e)
        | .ok Mv =>
          let s2 := { s1 with M := Mv }
          match checkTasksAux Mv A0.nrows L 0 with
          | some e => (s2, .error e)
          | none =>
            -- lines 283-288: label-map inference (`K = np.amax(L[0])`,
            -- `label_map = [list(range(K))]`)
            let lmInf : List (List ℤ) :=
              [(List.range A0.amax.toNat).map (fun k => (k : ℤ))]
            let pr : LMState × Option LMErr :=
              if s2.label_map = none ∧ init then
                (if 1 < Tv.getD 0 then (s2, some LMErr.labelMapAmbiguous)
                 else ({ s2 with label_map := some lmInf }, none))
              else (s2, none)
            let s3 := pr.1
            match pr.2 with
            | some e => (s3, .error e)
            | none =>
              match s3.label_map with
              | none => (s3, .error .assertionError)  -- line 292 on `None`
              | some lm =>
                match checkOrSet s3.K_t (lm.map List.length) init with
                | .error e => (s3, .error e)  -- line 291
                | .ok Kv =>
                  let s4 := { s3 with K_t := Kv }
                  match cardCheckAux (Kv.getD []) L 0 with
                  | some e => (s4, .error e)
                  | none => (s4, .ok L)

/-- `train` (lines 186-240): validation via `_check_L(init=True)`, overlaps
construction, parameter allocation, SGD epochs.  The `kwargs` merge into
`self.config` (line 198) is carried by `cfg`.  As in `checkL`, the result
pairs the final object state with the raised error, if any. -/
def train (s : LMState) (L : List SMat) (cfg : TrainCfg) :
    LMState × Option LMErr :=
  match checkL s L true with  -- line 202
  | (s1, .error e) => (s1, some e)
  | (s1, .ok Lc) =>
    match overlapsAll Lc 0 with  -- line 205
    | .error e => (s1, some e)
    | .ok O =>
      let g := fitGamma cfg O (s1.T.getD 0) (s1.M.getD 0)
      ({ s1 with gamma := some g }, none)

/-- A 1×1 input whose single source always votes `1`. -/
def L6c : Fin 1 → Fin 1 → ℤ := fun _ _ => 1

/-- Two sources that each vote (for class 1) on one point but never
co-occur. -/
def L7c : Fin 2 → Fin 2 → ℤ := fun i j => if i.val = j.val then 1 else 0

/-- Source 0 votes once; source 1 never votes. -/
def L7w : Fin 1 → Fin 2 → ℤ := fun _ j => if j.val = 0 then 1 else 0

/-- The overlaps matrix of `L7w`. -/
def OW7 : Fin 2 → Fin 2 → Fl :=
  fun i j => if i.val = 0 ∧ j.val = 0 then Fl.q 0.95 else Fl.q 0

/-- The model state right after `__init__(label_map=[[1, 2]])`: `T = 1`,
`multitask = False`, and no `M`/`K_t`/`gamma` attributes yet. -/
def s0c : LMState :=
  { T := some 1, M := none, label_map := some [[1, 2]], K_t := none,
    gamma := none, multitask := false }

/-- A single-task training input whose one vote value `3` exceeds the
declared cardinality `2`. -/
def L0c : List SMat := [{ data := [[3]], sparse := true, intDtype := true }]

/-- A concrete training configuration. -/
def cfgc : TrainCfg :=
  { gamma_init := 0.8, l2 := 0, n_epochs := 10, lr := 0.01, momentum := 0.9,
    weight_decay := 0 }

/-- The state `train s0c L0c cfgc` leaves behind when the cardinality check
raises: `M` and `K_t` have already been set. -/
def s1c : LMState := { s0c with M := some 1, K_t := some [2] }

/-- An all-zero 1×1 parameter matrix (witness input). -/
def gW : Fin 1 → Fin 1 → ℚ := fun _ _ => 0

/-- An all-abstain 1×1 vote matrix (witness input). -/
def LW : Fin 1 → Fin 1 → ℤ := fun _ _ => 0

/-- One source, two data points: votes `2` once, abstains once. -/
def L3c : Fin 2 → Fin 1 → ℤ := fun i _ => if i.val = 0 then 2 else 0

lemma denanF_q (a : ℚ) : denanF (Fl.q a) = Fl.q a := rfl

lemma denanF_nan : denanF Fl.nan = Fl.q 0 := rfl

lemma clampF_q (a : ℚ) : clampF (Fl.q a) = Fl.q (min (max a (-0.95)) 0.95) :=
  rfl

lemma Fl.mul_nan_left (x : Fl) : Fl.mul Fl.nan x = Fl.nan := rfl

lemma Fl.mul_nan_right (x : Fl) : Fl.mul x Fl.nan = Fl.nan := by
  cases x <;> rfl

lemma Fl.sub_q (a b : ℚ) : Fl.sub (Fl.q a) (Fl.q b) = Fl.q (a - b) := by
  simp only [Fl.sub, Fl.add, Fl.neg]
  rw [sub_eq_add_neg]

lemma Lnz_nonneg {N M : ℕ} (L : Fin N → Fin M → ℤ) (n : Fin N) (j : Fin M) :
    0 ≤ Lnz L n j := by
  unfold Lnz; split <;> norm_num

lemma Lnz_le_one {N M : ℕ} (L : Fin N → Fin M → ℤ) (n : Fin N) (j : Fin M) :
    Lnz L n j ≤ 1 := by
  unfold Lnz; split <;> norm_num

lemma Lnz_sq {N M : ℕ} (L : Fin N → Fin M → ℤ) (n : Fin N) (i : Fin M) :
    Lnz L n i * Lnz L n i = Lnz L n i := by
  unfold Lnz; split <;> norm_num

lemma betaProp_eq {N M : ℕ} (L : Fin N → Fin M → ℤ) (i : Fin M) :
    betaProp L i = (∑ n, Lnz L n i) / (N : ℚ) := by
  unfold betaProp Opre
  congr 1
  exact Finset.sum_congr rfl (fun n _ => Lnz_sq L n i)

lemma beta_zero_opre {N M : ℕ} (L : Fin N → Fin M → ℤ) {i : Fin M}
    (h : betaProp L i = 0) (j : Fin M) : Opre L i j = 0 ∧ Opre L j i = 0 := by
  rw [betaProp_eq] at h
  rcases div_eq_zero_iff.mp h with hs | hN
  · have hz : ∀ n, Lnz L n i = 0 := fun n =>
      (Finset.sum_eq_zero_iff_of_nonneg
        (fun m _ => Lnz_nonneg L m i)).mp hs n (Finset.mem_univ n)
    constructor
    · unfold Opre
      rw [Finset.sum_eq_zero (fun n _ => by rw [hz n, zero_mul]), zero_div]
    · unfold Opre
      rw [Finset.sum_eq_zero (fun n _ => by rw [hz n, mul_zero]), zero_div]
  · constructor <;> (unfold Opre; rw [hN, div_zero])

lemma onorm_nan {N M : ℕ} (L : Fin N → Fin M → ℤ) {i j : Fin M}
    (h : betaProp L i = 0 ∨ betaProp L j = 0) : OnormF L i j = Fl.nan := by
  by_cases hi : betaProp L i = 0
  · have hOij : Opre L i j = 0 := (beta_zero_opre L hi j).1
    unfold OnormF
    rw [hOij,
      show Fl.recip (Fl.q (betaProp L i)) = Fl.inf from by simp [Fl.recip, hi],
      show Fl.mul Fl.inf (Fl.q 0) = Fl.nan from by simp [Fl.mul]]
    exact Fl.mul_nan_left _
  · have hj : betaProp L j = 0 := h.resolve_left hi
    have hOij : Opre L i j = 0 := (beta_zero_opre L hj i).2
    unfold OnormF
    rw [hOij,
      show Fl.recip (Fl.q (betaProp L i)) = Fl.q (betaProp L i)⁻¹ from by
        simp [Fl.recip, hi],
      show Fl.recip (Fl.q (betaProp L j)) = Fl.inf from by simp [Fl.recip, hj],
      show Fl.mul (Fl.q (betaProp L i)⁻¹) (Fl.q 0) = Fl.q 0 from by
        simp [Fl.mul]]
    simp [Fl.mul]

lemma onorm_fin {N M : ℕ} (L : Fin N → Fin M → ℤ) {i j : Fin M}
    (hi : betaProp L i ≠ 0) (hj : betaProp L j ≠ 0) :
    OnormF L i j =
      Fl.q ((betaProp L i)⁻¹ * Opre L i j * (betaProp L j)⁻¹) := by
  unfold OnormF
  rw [show Fl.recip (Fl.q (betaProp L i)) = Fl.q (betaProp L i)⁻¹ from by
        simp [Fl.recip, hi],
      show Fl.recip (Fl.q (betaProp L j)) = Fl.q (betaProp L j)⁻¹ from by
        simp [Fl.recip, hj]]
  rfl

lemma clamp_mem (a : ℚ) :
    -0.95 ≤ min (max a (-0.95)) 0.95 ∧ min (max a (-0.95)) 0.95 ≤ 0.95 :=
  ⟨le_min (le_max_right a _) (by norm_num), min_le_right _ _⟩

lemma overlapsEntry_mem {N M : ℕ} (L : Fin N → Fin M → ℤ) (p : ℕ → ℤ)
    (i j : Fin M) :
    ∃ x, overlapsEntry L p i j = Fl.q x ∧ -0.95 ≤ x ∧ x ≤ 0.95 := by
  simp only [overlapsEntry]
  by_cases hb : betaProp L i = 0 ∨ betaProp L j = 0
  · rw [onorm_nan L hb]
    have hy : (if i ≠ j then
        Fl.mul (Fl.q (if p i.val = p j.val then 1 else -1))
          (Fl.sub Fl.nan (Fl.q 1))
      else Fl.nan) = Fl.nan := by split <;> rfl
    rw [hy, denanF_nan, clampF_q]
    exact ⟨_, rfl, clamp_mem 0⟩
  · push_neg at hb
    obtain ⟨hi, hj⟩ := hb
    rw [onorm_fin L hi hj]
    by_cases hij : i ≠ j
    · rw [if_pos hij, Fl.sub_q,
        show Fl.mul (Fl.q (if p i.val = p j.val then 1 else -1))
            (Fl.q ((betaProp L i)⁻¹ * Opre L i j * (betaProp L j)⁻¹ - 1)) =
          Fl.q ((if p i.val = p j.val then 1 else -1) *
            ((betaProp L i)⁻¹ * Opre L i j * (betaProp L j)⁻¹ - 1)) from rfl,
        denanF_q, clampF_q]
      exact ⟨_, rfl, clamp_mem _⟩
    · rw [if_neg hij, denanF_q, clampF_q]
      exact ⟨_, rfl, clamp_mem _⟩

lemma colVals_mem_iff {N M : ℕ} (L : Fin N → Fin M → ℤ) (j : Fin M)
    (v : ℤ) : v ∈ colVals L j ↔ v ≠ 0 ∧ ∃ i, L i j = v := by
  unfold colVals colVotes
  rw [List.mem_toFinset]
  simp only [List.mem_filter, List.mem_map, List.mem_finRange, true_and,
    decide_eq_true_eq]
  constructor
  · rintro ⟨⟨i, hi⟩, hv⟩
    exact ⟨hv, i, hi⟩
  · rintro ⟨hv, i, hi⟩
    exact ⟨⟨i, hi⟩, hv⟩

lemma colVals_card_le_one {N M : ℕ} (L : Fin N → Fin M → ℤ) (j : Fin M)
    (h : ∀ i1 i2, L i1 j ≠ 0 → L i2 j ≠ 0 → L i1 j = L i2 j) :
    (colVals L j).card ≤ 1 := by
  apply Finset.card_le_one.mpr
  intro a ha b hb
  rw [colVals_mem_iff] at ha hb
  obtain ⟨ha0, i1, h1⟩ := ha
  obtain ⟨hb0, i2, h2⟩ := hb
  rw [← h1, ← h2]
  exact h i1 i2 (by rw [h1]; exact ha0) (by rw [h2]; exact hb0)

lemma colVals_one_lt_iff {N M : ℕ} (L : Fin N → Fin M → ℤ) (j : Fin M) :
    1 < (colVals L j).card ↔
      ∃ i1 i2, L i1 j ≠ 0 ∧ L i2 j ≠ 0 ∧ L i1 j ≠ L i2 j := by
  constructor
  · intro h
    obtain ⟨a, ha, b, hb, hab⟩ := Finset.one_lt_card.mp h
    rw [colVals_mem_iff] at ha hb
    obtain ⟨ha0, i1, h1⟩ := ha
    obtain ⟨hb0, i2, h2⟩ := hb
    refine ⟨i1, i2, by rw [h1]; exact ha0, by rw [h2]; exact hb0, ?_⟩
    rw [h1, h2]
    exact fun hc => hab (hc ▸ rfl)
  · rintro ⟨i1, i2, h1, h2, h12⟩
    refine Finset.one_lt_card.mpr ⟨L i1 j, ?_, L i2 j, ?_, h12⟩
    · exact (colVals_mem_iff L j _).mpr ⟨h1, i1, rfl⟩
    · exact (colVals_mem_iff L j _).mpr ⟨h2, i2, rfl⟩

lemma colVotes_headI_eq {N M : ℕ} (L : Fin N → Fin M → ℤ) (j : Fin M)
    {v : ℤ} (hv : v ≠ 0) (hex : ∃ i, L i j = v)
    (huni : ∀ i1 i2, L i1 j ≠ 0 → L i2 j ≠ 0 → L i1 j = L i2 j) :
    (colVotes L j).headI = v := by
  obtain ⟨i0, hi0⟩ := hex
  have hvmem : v ∈ colVotes L j := by
    unfold colVotes
    simp only [List.mem_filter, List.mem_map, List.mem_finRange, true_and,
      decide_eq_true_eq]
    exact ⟨⟨i0, hi0⟩, hv⟩
  have hall : ∀ w ∈ colVotes L j, w = v := by
    intro w hw
    unfold colVotes at hw
    simp only [List.mem_filter, List.mem_map, List.mem_finRange, true_and,
      decide_eq_true_eq] at hw
    obtain ⟨⟨i2, h2⟩, hw0⟩ := hw
    rw [← h2, ← hi0]
    exact huni i2 i0 (by rw [h2]; exact hw0) (by rw [hi0]; exact hv)
  cases hcv : colVotes L j with
  | nil => rw [hcv] at hvmem; cases hvmem
  | cons a l =>
    rw [hcv] at hall
    simpa using hall a (List.mem_cons_self a l)

lemma inferPolarity_ok_of_vote {N M : ℕ} (L : Fin N → Fin M → ℤ) (t : ℕ)
    (j : Fin M) {v : ℤ} (hv : v ≠ 0) (hex : ∃ i, L i j = v)
    (huni : ∀ i1 i2, L i1 j ≠ 0 → L i2 j ≠ 0 → L i1 j = L i2 j) :
    inferPolarity L t j = .ok v := by
  have hcard := colVals_card_le_one L j huni
  have hmem : v ∈ colVals L j := (colVals_mem_iff L j v).mpr ⟨hv, hex⟩
  have hne : (colVals L j).card ≠ 0 := by
    intro h0
    rw [Finset.card_eq_zero.mp h0] at hmem
    cases hmem
  unfold inferPolarity
  rw [if_neg (by omega), if_neg hne, colVotes_headI_eq L j hv hex huni]

lemma inferPolarity_ok_of_novote {N M : ℕ} (L : Fin N → Fin M → ℤ) (t : ℕ)
    (j : Fin M) (h : ∀ i, L i j = 0) : inferPolarity L t j = .ok 0 := by
  have hempty : colVals L j = ∅ := by
    apply Finset.eq_empty_of_forall_not_mem
    intro v hvmem
    rw [colVals_mem_iff] at hvmem
    obtain ⟨hv, i, hi⟩ := hvmem
    exact hv (by rw [← hi, h i])
  unfold inferPolarity
  rw [hempty]
  norm_num

lemma inferPolarity_error_iff {N M : ℕ} (L : Fin N → Fin M → ℤ) (t : ℕ)
    (j : Fin M) :
    inferPolarity L t j = .error (.nonUnipolar t j.val) ↔
      1 < (colVals L j).card := by
  simp only [inferPolarity]
  split
  · next h => simp [h]
  · next h =>
    split <;> simp [h]

lemma inferPolarity_isErr_iff {N M : ℕ} (L : Fin N → Fin M → ℤ) (t : ℕ)
    (j : Fin M) :
    (∃ e, inferPolarity L t j = .error e) ↔ 1 < (colVals L j).card := by
  simp only [inferPolarity]
  split
  · next h => exact iff_of_true ⟨_, rfl⟩ h
  · next h =>
    refine iff_of_false ?_ h
    rintro ⟨e, he⟩
    split at he <;> cases he

lemma polList_isErr_iff {N M : ℕ} (L : Fin N → Fin M → ℤ) (t : ℕ)
    (l : List (Fin M)) :
    (∃ e, polList L t l = .error e) ↔
      ∃ j ∈ l, ∃ e, inferPolarity L t j = .error e := by
  induction l with
  | nil => simp [polList]
  | cons x xs ih =>
    simp only [polList, List.mem_cons]
    cases hx : inferPolarity L t x with
    | error e =>
      exact iff_of_true ⟨e, rfl⟩ ⟨x, Or.inl rfl, e, hx⟩
    | ok v =>
      cases hr : polList L t xs with
      | error e =>
        refine iff_of_true ⟨e, rfl⟩ ?_
        obtain ⟨j, hj, he⟩ := ih.mp ⟨e, hr⟩
        exact ⟨j, Or.inr hj, he⟩
      | ok vs =>
        refine iff_of_false (by rintro ⟨e, he⟩; cases he) ?_
        rintro ⟨j, hj | hj, e, he⟩
        · rw [← hj] at hx
          rw [hx] at he
          cases he
        · exact absurd (ih.mpr ⟨j, hj, e, he⟩) (by rw [hr]; rintro ⟨e2, he2⟩; cases he2)

lemma getOverlaps_isErr_iff {N M : ℕ} (L : Fin N → Fin M → ℤ) (t : ℕ) :
    (∃ e, getOverlapsMatrix L t = .error e) ↔
      ∃ j : Fin M, ∃ e, inferPolarity L t j = .error e := by
  unfold getOverlapsMatrix
  cases hp : polList L t (List.finRange M) with
  | error e =>
    refine iff_of_true ⟨e, rfl⟩ ?_
    obtain ⟨j, _, he⟩ := (polList_isErr_iff L t (List.finRange M)).mp ⟨e, hp⟩
    exact ⟨j, he⟩
  | ok pl =>
    refine iff_of_false (by rintro ⟨e, he⟩; cases he) ?_
    rintro ⟨j, e, he⟩
    exact absurd ((polList_isErr_iff L t (List.finRange M)).mpr
      ⟨j, List.mem_finRange j, e, he⟩) (by rw [hp]; rintro ⟨e2, he2⟩; cases he2)

lemma foldl_add_if {α : Type} (P : α → Prop) [DecidablePred P] (f : α → ℚ) :
    ∀ (l : List α) (a : ℚ),
      l.foldl (fun b x => if P x then b + f x else b) a =
        a + (l.map (fun x => if P x then f x else 0)).sum := by
  intro l
  induction l with
  | nil => intro a; simp
  | cons x xs ih =>
    intro a
    simp only [List.foldl_cons, List.map_cons, List.sum_cons]
    by_cases hx : P x
    · rw [if_pos hx, if_pos hx, ih]
      ring
    · rw [if_neg hx, if_neg hx, ih]
      ring

lemma foldl_add {α : Type} (f : α → ℚ) :
    ∀ (l : List α) (a : ℚ),
      l.foldl (fun b x => b + f x) a = a + (l.map f).sum := by
  intro l
  induction l with
  | nil => intro a; simp
  | cons x xs ih =>
    intro a
    simp only [List.foldl_cons, List.map_cons, List.sum_cons]
    rw [ih]
    ring

lemma nested_loop_sum {M : ℕ} (F : Fin M → Fin M → ℚ) :
    (List.finRange M).foldl (fun acc i =>
      (List.finRange M).foldl (fun acc2 j =>
        if i ≠ j then acc2 + F i j else acc2) acc) 0 =
      ∑ i, ∑ j, if i ≠ j then F i j else 0 := by
  have hinner : ∀ (i : Fin M) (a : ℚ),
      (List.finRange M).foldl (fun acc2 j =>
        if i ≠ j then acc2 + F i j else acc2) a =
        a + ((List.finRange M).map (fun j => if i ≠ j then F i j else 0)).sum :=
    fun i a => foldl_add_if (fun j => i ≠ j) (F i) (List.finRange M) a
  have houter : ∀ (l : List (Fin M)) (a : ℚ),
      l.foldl (fun acc i =>
        (List.finRange M).foldl (fun acc2 j =>
          if i ≠ j then acc2 + F i j else acc2) acc) a =
        a + (l.map (fun i =>
          ((List.finRange M).map (fun j => if i ≠ j then F i j else 0)).sum)).sum := by
    intro l
    induction l with
    | nil => intro a; simp
    | cons x xs ih =>
      intro a
      simp only [List.foldl_cons, List.map_cons, List.sum_cons]
      rw [hinner x a, ih]
      ring
  rw [houter, zero_add]
  rw [show (∑ i, ∑ j, if i ≠ j then F i j else 0) =
    ((List.finRange M).map (fun i => ∑ j, if i ≠ j then F i j else 0)).sum
    from Fin.sum_univ_def _]
  congr 1

lemma accs_bounds {T M : ℕ} (gamma : Fin T → Fin M → ℚ) (t : Fin T)
    (j : Fin M) : 0.01 ≤ accs gamma t j ∧ accs gamma t j ≤ 0.99 := by
  unfold accs
  constructor
  · exact le_min (le_max_right _ _) (by norm_num)
  · exact min_le_right _ _

lemma overlapsEntry_diag_vote {N M : ℕ} (L : Fin N → Fin M → ℤ) (p : ℕ → ℤ)
    (i : Fin M) (h : ∃ n, L n i ≠ 0) : overlapsEntry L p i i = Fl.q 0.95 := by
  obtain ⟨n0, hn0⟩ := h
  have hNpos : (0 : ℚ) < N := by exact_mod_cast n0.pos
  have hsum_pos : (0 : ℚ) < ∑ n, Lnz L n i :=
    Finset.sum_pos' (fun n _ => Lnz_nonneg L n i)
      ⟨n0, Finset.mem_univ n0, by unfold Lnz; rw [if_neg hn0]; norm_num⟩
  have hsum_le : (∑ n, Lnz L n i) ≤ N := by
    calc (∑ n, Lnz L n i) ≤ ∑ _n : Fin N, (1 : ℚ) :=
          Finset.sum_le_sum (fun n _ => Lnz_le_one L n i)
    _ = N := by simp
  have hbpos : 0 < betaProp L i := by
    rw [betaProp_eq]
    exact div_pos hsum_pos hNpos
  have hble : betaProp L i ≤ 1 := by
    rw [betaProp_eq, div_le_one hNpos]
    exact hsum_le
  have hinv : 1 ≤ (betaProp L i)⁻¹ := one_le_inv_iff₀.mpr ⟨hbpos, hble⟩
  simp only [overlapsEntry]
  rw [if_neg (fun hc => hc rfl)]
  rw [onorm_fin L (ne_of_gt hbpos) (ne_of_gt hbpos)]
  rw [show Opre L i i = betaProp L i from rfl]
  rw [inv_mul_cancel₀ (ne_of_gt hbpos), one_mul]
  rw [denanF_q, clampF_q]
  congr 1
  rw [max_eq_left (le_trans (by norm_num) hinv),
    min_eq_right (le_trans (by norm_num) hinv)]

lemma overlapsEntry_novote {N M : ℕ} (L : Fin N → Fin M → ℤ) (p : ℕ → ℤ)
    {i j : Fin M} (hij : i ≠ j)
    (h : (∀ n, L n i = 0) ∨ (∀ n, L n j = 0)) :
    overlapsEntry L p i j = Fl.q 0 := by
  have hb : betaProp L i = 0 ∨ betaProp L j = 0 := by
    rcases h with h | h
    · left
      rw [betaProp_eq,
        Finset.sum_eq_zero (fun n _ => by unfold Lnz; rw [if_pos (h n)]),
        zero_div]
    · right
      rw [betaProp_eq,
        Finset.sum_eq_zero (fun n _ => by unfold Lnz; rw [if_pos (h n)]),
        zero_div]
  simp only [overlapsEntry]
  rw [onorm_nan L hb, if_pos hij,
    show Fl.sub Fl.nan (Fl.q 1) = Fl.nan from rfl,
    show Fl.mul (Fl.q (if p i.val = p j.val then 1 else -1)) Fl.nan = Fl.nan
      from rfl,
    denanF_nan, clampF_q]
  rw [max_eq_left (by norm_num), min_eq_left (by norm_num)]

lemma checkL_gamma (s : LMState) (L : List SMat) (init : Bool) :
    ((checkL s L init).1).gamma = s.gamma := by
  simp only [checkL]
  repeat' split <;> try rfl

lemma getOverlaps_ok_entries {N M : ℕ} (L : Fin N → Fin M → ℤ) (t : ℕ)
    (O : Fin M → Fin M → Fl) (h : getOverlapsMatrix L t = .ok O) :
    ∃ p : ℕ → ℤ, ∀ i j, O i j = overlapsEntry L p i j := by
  unfold getOverlapsMatrix at h
  cases hp : polList L t (List.finRange M) with
  | error e => rw [hp] at h; cases h
  | ok pl =>
    rw [hp] at h
    injection h with h2
    exact ⟨fun k => pl.getD k 0, fun i j => by rw [← h2]⟩

lemma overlaps_L6c : getOverlapsMatrix L6c 0 = .ok (fun _ _ => Fl.q 0.95) := by
  have hpol : polList L6c 0 (List.finRange 1) = .ok [1] := by decide
  unfold getOverlapsMatrix
  rw [hpol]
  show Except.ok
    (fun i j => overlapsEntry L6c (fun k => ([1] : List ℤ).getD k 0) i j) = _
  congr 1
  funext i j
  rw [Fin.eq_zero i, Fin.eq_zero j]
  norm_num [overlapsEntry, OnormF, Opre, betaProp, Lnz, denanF_q, clampF_q,
    Fl.mul, Fl.recip, Fl.sub, Fl.add, Fl.neg, Fin.sum_univ_one, L6c,
    min_def, max_def]

lemma overlaps_L7c_01 :
    Except.map (fun O => O 0 1) (getOverlapsMatrix L7c 0) =
      .ok (Fl.q (-0.95)) := by
  have hpol : polList L7c 0 (List.finRange 2) = .ok [1, 1] := by decide
  unfold getOverlapsMatrix
  rw [hpol]
  show Except.ok (overlapsEntry L7c (fun k => [1, 1].getD k 0) 0 1) = _
  norm_num [overlapsEntry, OnormF, Opre, betaProp, Lnz, denanF_q, clampF_q,
    Fl.mul, Fl.recip, Fl.sub, Fl.add, Fl.neg, Fin.sum_univ_two, L7c,
    min_def, max_def, Fin.ext_iff]

lemma overlaps_L7w : getOverlapsMatrix L7w 0 = .ok OW7 := by
  have hpol : polList L7w 0 (List.finRange 2) = .ok [1, 0] := by decide
  unfold getOverlapsMatrix
  rw [hpol]
  show Except.ok
    (fun i j => overlapsEntry L7w (fun k => ([1, 0] : List ℤ).getD k 0) i j) = _
  congr 1
  funext i j
  fin_cases i <;> fin_cases j <;>
    norm_num [overlapsEntry, OnormF, Opre, betaProp, Lnz, denanF_q, denanF_nan,
      clampF_q, OW7, Fl.mul, Fl.recip, Fl.sub, Fl.add, Fl.neg,
      Fin.sum_univ_one, L7w, min_def, max_def, Fin.ext_iff]

lemma whereVote_zero (y : ℕ) : whereVote 0 (y + 1) = 0 := by
  have h2 : ¬(0 : ℚ) = (y : ℚ) + 1 := by
    have hy : (0 : ℚ) ≤ (y : ℚ) := Nat.cast_nonneg y
    intro hc
    linarith
  simp [whereVote, h2]

/-- C1: for every task `t`, weight `l2` and overlaps matrix `O_t`,
`_task_loss(O_t, t, l2)` equals the sum over all ordered pairs `(i, j)` with
`i ≠ j` of `(γ[t,i]·γ[t,j] − O_t[i,j])²` divided by `M² − M`, plus, when
`l2 > 0`, `l2 · Σ_i (γ[t,i] − gamma_init)²`; and `get_loss(O, l2)` equals
the plain (unaveraged) sum of `_task_loss` over all `T` tasks. -/
theorem C1_loss_formula {T M : ℕ} (gamma : Fin T → Fin M → ℚ)
    (gamma_init : ℚ) (O : Fin T → Fin M → Fin M → ℚ) (l2 : ℚ) :
    (∀ t, taskLoss gamma gamma_init (O t) t l2 =
      (∑ i, ∑ j, if i ≠ j then (gamma t i * gamma t j - O t i j) ^ 2 else 0) /
        ((M : ℚ) ^ 2 - (M : ℚ)) +
      (if l2 > 0 then l2 * ∑ i, (gamma t i - gamma_init) ^ 2 else 0)) ∧
    getLoss gamma gamma_init O l2 =
      ∑ t, taskLoss gamma gamma_init (O t) t l2 := by
  constructor
  · intro t
    simp only [taskLoss]
    rw [nested_loop_sum]
    split
    · rfl
    · rw [add_zero]
  · simp only [getLoss]
    rw [foldl_add (fun t => taskLoss gamma gamma_init (O t) t l2)
      (List.finRange T) 0, zero_add]
    exact (Fin.sum_univ_def _).symm

/-- C2: for every fitted `γ`, every task `t` and every vote matrix `L`, each
row of the `[N, K_t]` matrix returned by `predict_task_proba` sums to `1`,
and a row whose sources all abstain has all unnormalized scores `0` and
yields the uniform distribution over the `K_t` classes. -/
theorem C2_predict_rows {T M N K : ℕ} (gamma : Fin T → Fin M → ℚ)
    (t : Fin T) (L : Fin N → Fin M → ℤ) (hK : 0 < K) :
    (∀ n, ∑ k, predictTaskProba gamma t L K n k = 1) ∧
    (∀ n, (∀ j, L n j = 0) →
      (∀ k : Fin K, Ypt gamma t L K n k = 0) ∧
      (∀ k, predictTaskProba gamma t L K n k = 1 / (K : ℝ))) := by
  have hne : Nonempty (Fin K) := ⟨⟨0, hK⟩⟩
  have hpos : ∀ n, 0 < ∑ k2, Real.exp (Ypt gamma t L K n k2) := fun n =>
    Finset.sum_pos (fun k _ => Real.exp_pos _) Finset.univ_nonempty
  constructor
  · intro n
    unfold predictTaskProba
    rw [← Finset.sum_div, div_self (ne_of_gt (hpos n))]
  · intro n habs
    have hwv : ∀ k : Fin K, ∀ j,
        whereVote ((L n j : ℚ)) (k.val + 1) = 0 := by
      intro k j
      rw [habs j, Int.cast_zero]
      exact whereVote_zero k.val
    have hzero : ∀ k : Fin K, Ypt gamma t L K n k = 0 := by
      intro k
      unfold Ypt
      apply Finset.sum_eq_zero
      intro j _
      rw [hwv k j]
      norm_num
    refine ⟨hzero, fun k => ?_⟩
    unfold predictTaskProba
    rw [hzero k, Real.exp_zero,
      Finset.sum_congr rfl (fun k2 _ => by rw [hzero k2, Real.exp_zero]),
      Finset.sum_const, nsmul_eq_mul, mul_one, Finset.card_univ,
      Fintype.card_fin]

/-- Witness for C2 at the concrete all-abstain input `LW` with `K = 1`. -/
theorem C2_predict_rows_witness :
    0 < 1 ∧
    ((∀ n, ∑ k, predictTaskProba gW 0 LW 1 n k = 1) ∧
     (∀ n, (∀ j, LW n j = 0) →
       (∀ k : Fin 1, Ypt gW 0 LW 1 n k = 0) ∧
       (∀ k, predictTaskProba gW 0 LW 1 n k = 1 / ((1 : ℕ) : ℝ)))) :=
  ⟨by decide, C2_predict_rows gW 0 LW (by decide)⟩

/-- C3: for a source that casts at most one distinct nonzero vote value on a
task, `_infer_polarity` returns that unique nonzero value if the source voted
at least once, and `0` if it never voted. -/
theorem C3_infer_polarity {N M : ℕ} (L : Fin N → Fin M → ℤ) (t : ℕ)
    (j : Fin M)
    (huni : ∀ i1 i2, L i1 j ≠ 0 → L i2 j ≠ 0 → L i1 j = L i2 j) :
    ((∀ i, L i j = 0) → inferPolarity L t j = .ok 0) ∧
    (∀ v, v ≠ 0 → (∃ i, L i j = v) → inferPolarity L t j = .ok v) :=
  ⟨fun h => inferPolarity_ok_of_novote L t j h,
   fun _v hv hex => inferPolarity_ok_of_vote L t j hv hex huni⟩

/-- Witness for C3 at the concrete unipolar input `L3c`. -/
theorem C3_infer_polarity_witness :
    (∀ i1 i2 : Fin 2, L3c i1 0 ≠ 0 → L3c i2 0 ≠ 0 → L3c i1 0 = L3c i2 0) ∧
    (((∀ i, L3c i 0 = 0) → inferPolarity L3c 0 0 = .ok 0) ∧
     (∀ v, v ≠ 0 → (∃ i, L3c i 0 = v) → inferPolarity L3c 0 0 = .ok v)) :=
  ⟨by decide, C3_infer_polarity L3c 0 0 (by decide)⟩

/-- C4: `_infer_polarity` (and hence `_get_overlaps_matrix`, which calls it
for every source) raises the non-unipolar error if and only if the given
source casts two or more distinct non-abstain vote values on the task. -/
theorem C4_non_unipolar_iff {N M : ℕ} (L : Fin N → Fin M → ℤ) (t : ℕ) :
    (∀ j : Fin M, inferPolarity L t j = .error (.nonUnipolar t j.val) ↔
      ∃ i1 i2, L i1 j ≠ 0 ∧ L i2 j ≠ 0 ∧ L i1 j ≠ L i2 j) ∧
    ((∃ e, getOverlapsMatrix L t = .error e) ↔
      ∃ j : Fin M, ∃ i1 i2, L i1 j ≠ 0 ∧ L i2 j ≠ 0 ∧ L i1 j ≠ L i2 j) := by
  constructor
  · intro j
    rw [inferPolarity_error_iff, colVals_one_lt_iff]
  · rw [getOverlaps_isErr_iff]
    exact exists_congr fun j => by
      rw [inferPolarity_isErr_iff, colVals_one_lt_iff]

/-- C5: for every unipolar input accepted by `_get_overlaps_matrix`, every
entry of the returned matrix is a plain (non-NaN) value in
`[-0.95, 0.95]`. -/
theorem C5_overlaps_bounded {N M : ℕ} (L : Fin N → Fin M → ℤ) (t : ℕ)
    (O : Fin M → Fin M → Fl) (h : getOverlapsMatrix L t = .ok O) :
    ∀ i j, ∃ x, O i j = Fl.q x ∧ -0.95 ≤ x ∧ x ≤ 0.95 := by
  obtain ⟨p, hp⟩ := getOverlaps_ok_entries L t O h
  intro i j
  rw [hp i j]
  exact overlapsEntry_mem L p i j

/-- Witness for C5 at the concrete input `L6c`. -/
theorem C5_overlaps_bounded_witness :
    (getOverlapsMatrix L6c 0 = .ok (fun _ _ => Fl.q 0.95)) ∧
    (∀ i j : Fin 1, ∃ x,
      (fun (_ : Fin 1) (_ : Fin 1) => Fl.q 0.95) i j = Fl.q x ∧
        -0.95 ≤ x ∧ x ≤ 0.95) :=
  ⟨overlaps_L6c, C5_overlaps_bounded L6c 0 _ overlaps_L6c⟩

/-- C6 counterexample: on the 1×1 input `L6c` the single source votes on
every point, so its propensity-normalized self-overlap is `1`
(`betaProp = 1`), yet the diagonal entry of the returned matrix is `0.95`,
not `1`: `torch.clamp(·, max=0.95)` is applied to the diagonal too. -/
theorem C6_counterexample :
    L6c 0 0 = 1 ∧ betaProp L6c 0 = 1 ∧
    Except.map (fun O => O 0 0) (getOverlapsMatrix L6c 0) =
      .ok (Fl.q 0.95) ∧
    Fl.q 0.95 ≠ Fl.q 1 := by
  refine ⟨rfl, ?_, ?_, ?_⟩
  · norm_num [betaProp, Opre, Lnz, Fin.sum_univ_one, L6c]
  · rw [overlaps_L6c]; rfl
  · intro hc
    injection hc with hc2
    norm_num at hc2

/-- C6 (amended): the propensity-normalized self-overlap of a source that
votes at least once is `1/β_i ≥ 1`, and the final clamp maps the diagonal of
the returned matrix to exactly `0.95` (not `1`; diagonal entries are not
sign-corrected). -/
theorem C6_overlaps_diag {N M : ℕ} (L : Fin N → Fin M → ℤ) (t : ℕ)
    (O : Fin M → Fin M → Fl) (h : getOverlapsMatrix L t = .ok O)
    (i : Fin M) (hv : ∃ n, L n i ≠ 0) : O i i = Fl.q 0.95 := by
  obtain ⟨p, hp⟩ := getOverlaps_ok_entries L t O h
  rw [hp i i]
  exact overlapsEntry_diag_vote L p i hv

/-- Witness for the amended C6 at the concrete input `L6c`. -/
theorem C6_overlaps_diag_witness :
    (getOverlapsMatrix L6c 0 = .ok (fun _ _ => Fl.q 0.95)) ∧
    (∃ n : Fin 1, L6c n 0 ≠ 0) ∧
    (fun (_ : Fin 1) (_ : Fin 1) => Fl.q 0.95) 0 0 = Fl.q 0.95 :=
  ⟨overlaps_L6c, by decide,
   C6_overlaps_diag L6c 0 _ overlaps_L6c 0 (by decide)⟩

/-- C7 counterexample: in `L7c` both sources vote (rows 0 and 1
respectively) and never co-occur, yet the returned off-diagonal entry is
`-0.95`, not `0`: the polarity correction turns the normalized co-occurrence
`0` into `c · (0 − 1) = -1`, which the clamp maps to `-0.95`.  Only a source
with no votes at all yields `0` via the NaN path. -/
theorem C7_counterexample :
    L7c 0 0 = 1 ∧ L7c 1 1 = 1 ∧ L7c 0 1 = 0 ∧ L7c 1 0 = 0 ∧
    Except.map (fun O => O 0 1) (getOverlapsMatrix L7c 0) =
      .ok (Fl.q (-0.95)) ∧
    Fl.q (-0.95) ≠ Fl.q 0 := by
  refine ⟨rfl, rfl, rfl, rfl, overlaps_L7c_01, ?_⟩
  intro hc
  injection hc with hc2
  norm_num at hc2

/-- C7 (amended): for distinct sources `i ≠ j` where at least one of the two
casts no vote at all on the task, the returned overlaps entry is exactly `0`
(the NaN produced by the zero propensity is resolved to `0`). -/
theorem C7_overlaps_novote {N M : ℕ} (L : Fin N → Fin M → ℤ) (t : ℕ)
    (O : Fin M → Fin M → Fl) (h : getOverlapsMatrix L t = .ok O)
    (i j : Fin M) (hij : i ≠ j)
    (hnv : (∀ n, L n i = 0) ∨ (∀ n, L n j = 0)) : O i j = Fl.q 0 := by
  obtain ⟨p, hp⟩ := getOverlaps_ok_entries L t O h
  rw [hp i j]
  exact overlapsEntry_novote L p hij hnv

/-- Witness for the amended C7 at the concrete input `L7w` (source 1 never
votes). -/
theorem C7_overlaps_novote_witness :
    (getOverlapsMatrix L7w 0 = .ok OW7) ∧
    (0 : Fin 2) ≠ 1 ∧ (∀ n : Fin 1, L7w n 1 = 0) ∧ OW7 0 1 = Fl.q 0 :=
  ⟨overlaps_L7w, by decide, by decide,
   C7_overlaps_novote L7w 0 OW7 overlaps_L7w 0 1 (by decide)
     (Or.inr (by decide))⟩

/-- C8: every entry of the derived accuracies tensor equals
`0.5·(γ+1)` clamped elementwise into `[0.01, 0.99]`, regardless of γ's
magnitude. -/
theorem C8_accs_clamped {T M : ℕ} (gamma : Fin T → Fin M → ℚ) (t : Fin T)
    (j : Fin M) :
    accs gamma t j = max 0.01 (min (0.5 * (gamma t j + 1)) 0.99) ∧
    0.01 ≤ accs gamma t j ∧ accs gamma t j ≤ 0.99 := by
  refine ⟨?_, accs_bounds gamma t j⟩
  unfold accs
  rw [max_min_distrib_left, max_eq_right (by norm_num : (0.01 : ℚ) ≤ 0.99),
    max_comm]

/-- C10: the argument of the logarithm in `log_odds_accs` is strictly
positive (so the float `log` is defined), and every entry of
`log_odds_accs` lies within `[-log 99, log 99]` — finite, never NaN or
±infinity. -/
theorem C10_log_odds_finite {T M : ℕ} (gamma : Fin T → Fin M → ℚ)
    (t : Fin T) (j : Fin M) :
    0 < (accs gamma t j : ℝ) / (1 - (accs gamma t j : ℝ)) ∧
    -Real.log 99 ≤ logOddsAccs gamma t j ∧
    logOddsAccs gamma t j ≤ Real.log 99 := by
  obtain ⟨h1, h2⟩ := accs_bounds gamma t j
  have h1q : (1 / 100 : ℚ) ≤ accs gamma t j := by norm_num at h1 ⊢; linarith
  have h2q : accs gamma t j ≤ 99 / 100 := by norm_num at h2 ⊢; linarith
  have h1r : ((1 / 100 : ℚ) : ℝ) ≤ (accs gamma t j : ℝ) :=
    Rat.cast_le.mpr h1q
  have h2r : (accs gamma t j : ℝ) ≤ ((99 / 100 : ℚ) : ℝ) :=
    Rat.cast_le.mpr h2q
  push_cast at h1r h2r
  set a := (accs gamma t j : ℝ) with ha
  have hd : 0 < 1 - a := by linarith
  have hpos : 0 < a / (1 - a) := div_pos (by linarith) hd
  refine ⟨hpos, ?_, ?_⟩
  · have hratio : (1 : ℝ) / 99 ≤ a / (1 - a) := by
      rw [div_le_div_iff₀ (by norm_num) hd]
      linarith
    have hlog := Real.log_le_log (by norm_num) hratio
    rw [show Real.log (1 / 99) = -Real.log 99 from by
      rw [one_div, Real.log_inv]] at hlog
    exact hlog
  · have hratio : a / (1 - a) ≤ 99 := by
      rw [div_le_iff₀ hd]
      linarith
    exact Real.log_le_log hpos hratio

/-- C9 counterexample: training `s0c` (a fresh model with
`label_map = [[1, 2]]`) on the cardinality-violating input `L0c` raises the
cardinality error, yet `self.M` and `self.K_t` have already been mutated on
the model object, so partial training state is left behind. -/
theorem C9_counterexample :
    (train s0c L0c cfgc).2 = some (.cardinality 0) ∧
    (train s0c L0c cfgc).1 = s1c ∧
    s1c.M = some 1 ∧ s0c.M = none ∧ s1c ≠ s0c := by
  decide

/-- C9 (amended): every error raised by `train` (all of `_check_L`'s checks
and the non-unipolarity check inside the overlaps construction) occurs
before `_init_params` allocates `gamma`, so on a failing run `gamma` is
left untouched; however `_check_L` mutates `T`/`M`/`label_map`/`K_t` as it
goes, so a later validation failure leaves those attributes changed. -/
theorem C9_train_amended (s : LMState) (L : List SMat) (cfg : TrainCfg)
    (s2 : LMState) (e : LMErr) (h : train s L cfg = (s2, some e)) :
    s2.gamma = s.gamma := by
  unfold train at h
  cases hck : checkL s L true with
  | mk s1 r =>
    have hs1 : s1.gamma = s.gamma := by
      rw [show s1 = (checkL s L true).1 from by rw [hck]]
      exact checkL_gamma s L true
    rw [hck] at h
    cases r with
    | error e2 =>
      injection h with h1 h2
      rw [← h1]
      exact hs1
    | ok Lc =>
      have h2 : (match overlapsAll Lc 0 with
          | Except.error e => (s1, some e)
          | Except.ok O =>
            let g := fitGamma cfg O (s1.T.getD 0) (s1.M.getD 0)
            ({ s1 with gamma := some g }, none)) = (s2, some e) := h
      cases ho : overlapsAll Lc 0 with
      | error e2 =>
        rw [ho] at h2
        injection h2 with hA hB
        rw [← hA]
        exact hs1
      | ok O =>
        rw [ho] at h2
        injection h2 with hA hB
        cases hB

/-- Witness for the amended C9 at the concrete failing run. -/
theorem C9_train_amended_witness :
    train s0c L0c cfgc = (s1c, some (.cardinality 0)) ∧
    s1c.gamma = s0c.gamma :=
  ⟨by decide,
   C9_train_amended s0c L0c cfgc s1c (.cardinality 0) (by decide)⟩
